import Mathlib

/-!
# Verification of the KAT SECT per-sequence coverage analyzer

Shallow embedding of `src/sect.cc` (KAT, the K-mer Analysis Toolkit; SECT
tool): the per-sequence coverage analyzer (`kat::Sect::processSeq`), the
k-mer validity check (`validKmer`), the interlaced batch partitioning
(`kat::Sect::processInterlaced`), the per-batch report emission
(`printCounts`, `printStatTable`) and the contamination-matrix accumulation
(`incTM` increments into per-thread matrices, merged once at the end).

Sequences are lists of characters, k-mer counts are natural numbers, and
the C `double` arithmetic of the statistics is idealized as exact rational
arithmetic (`ℚ`).  The mathematical `log10` of the C math library is kept
abstract: it is passed in as a function `rlog10 : ℚ → ℚ` giving the value
on positive arguments, while the IEEE behaviour on arguments `≤ 0`
(a non-finite result, `-inf` or NaN) is represented by `none` in an
`Option ℚ`.
-/

namespace KatSect

/-- The k-mer validity check of `validKmer` in `sect.cc` (lines 357-371):
a `switch` over each character that accepts `'A'`, `'T'`, `'G'`, `'C'`
(upper case only) and returns `false` on the first other character. -/
def validKmer : List Char → Bool
  | [] => true
  | c :: rest =>
    match c with
    | 'A' => validKmer rest
    | 'T' => validKmer rest
    | 'G' => validKmer rest
    | 'C' => validKmer rest
    | _ => false

/-- The window extraction `seq.substr(i, merLen)` of `sect.cc` line 401. -/
def substrK (seq : List Char) (i k : Nat) : List Char :=
  (seq.drop i).take k

/-- The k-mer count vector built by the window loop of
`kat::Sect::processSeq` (`sect.cc` lines 395-412): one entry per window
offset `i < nbCounts = seqLength - merLen + 1`; a window failing
`validKmer` gets count `0`, any other window gets the count returned by
the count-index lookup (`JellyfishHelper::getCount`, abstracted here as
the function `lookup` with the canonical-strand flag folded in). -/
def seqCountsVec (lookup : List Char → Nat) (k : Nat) (seq : List Char) : List Nat :=
  (List.range (seq.length - k + 1)).map fun i =>
    let merstr := substrK seq i k
    if validKmer merstr then lookup merstr else 0

/-- The median aggregation of `sect.cc` lines 418-424: sort a copy of the
count vector ascending and take the element at index `size / 2`. -/
def medianCoverage (counts : List Nat) : ℚ :=
  let sorted := counts.insertionSort (· ≤ ·)
  ((sorted.getD (sorted.length / 2) 0 : Nat) : ℚ)

/-- The GC-content counting loop of `sect.cc` lines 439-452: count
`G`/`g` into `gs`, `C`/`c` into `cs` and `N`/`n` into `ns`; every other
character falls through all three `if`s. -/
def gcCounts : List Char → Nat × Nat × Nat
  | [] => (0, 0, 0)
  | c :: rest =>
    let r := gcCounts rest
    if c = 'G' ∨ c = 'g' then (r.1 + 1, r.2.1, r.2.2)
    else if c = 'C' ∨ c = 'c' then (r.1, r.2.1 + 1, r.2.2)
    else if c = 'N' ∨ c = 'n' then (r.1, r.2.1, r.2.2 + 1)
    else r

/-- The GC fraction `gc_perc = (gs + cs) / (seqLength - ns)` of
`sect.cc` line 454 (the subtraction is on `uint64_t`, and `ns` never
exceeds the sequence length). -/
def gcFraction (seq : List Char) : ℚ :=
  let r := gcCounts seq
  ((r.1 + r.2.1 : Nat) : ℚ) / ((seq.length - r.2.2 : Nat) : ℚ)

/-- The C math-library `log10` on a `double`, idealized over `ℚ`: on a
positive argument it returns the abstract value `rlog10 x`; on an
argument `≤ 0` the IEEE result is non-finite (`-inf` at `0`, NaN below),
represented here by `none`. -/
def log10D (rlog10 : ℚ → ℚ) (x : ℚ) : Option ℚ :=
  if x ≤ 0 then none else some (rlog10 x)

/-- The scaled coverage value `compressed_cvg` of `sect.cc` lines
457-460: `log10(average_cvg) * (cvgBins / 5.0)` in log-scale mode,
`average_cvg * 0.1` otherwise.  A non-finite log propagates as `none`. -/
def compressedCvg (rlog10 : ℚ → ℚ) (logscale : Bool) (cvgBins : Nat) (cvg : ℚ) : Option ℚ :=
  if logscale then (log10D rlog10 cvg).map fun l => l * ((cvgBins : ℚ) / 5)
  else some (cvg * (1 / 10))

/-- The upper clamp of `sect.cc` line 463:
`compressed_cvg >= cvgBins ? cvgBins - 1 : compressed_cvg`. -/
def clampCvg (cvgBins : Nat) (c : ℚ) : ℚ :=
  if (cvgBins : ℚ) ≤ c then ((cvgBins - 1 : Nat) : ℚ) else c

/-- The coverage-axis bin value of `sect.cc` lines 457-463, before the
conversion of the clamped `double` to `uint16_t`: scaling followed by the
upper clamp; `none` records a non-finite value reaching the conversion. -/
def cvgBinVal (rlog10 : ℚ → ℚ) (logscale : Bool) (cvgBins : Nat) (cvg : ℚ) : Option ℚ :=
  (compressedCvg rlog10 logscale cvgBins cvg).map (clampCvg cvgBins)

/-- Configuration of `kat::Sect` relevant to `processSeq`: the k-mer
length, the aggregation mode (`median` true by default, false after
`--mean`), the log-scale flag and the two bin counts. -/
structure SectCfg where
  merLen : Nat
  median : Bool
  cvgLogscale : Bool
  gcBins : Nat
  cvgBins : Nat

/-- The per-sequence outputs written by `kat::Sect::processSeq` into the
batch buffers at the sequence's index, together with the contamination
increment it performs: `counts` models the `shared_ptr` slot in the
`counts` vector (`none` = null pointer, i.e. the slot was never written),
`binX`/`binYval` the two bin coordinates computed for the matrix
(`binYval` before the integer conversion, `none` = non-finite), `incr`
the magnitude added to the worker's thread matrix, and `diag` whether the
too-short diagnostic was printed to `cerr`. -/
structure SeqResult where
  counts : Option (List Nat)
  coverage : ℚ
  length : Nat
  nonZero : Nat
  percentNonZero : ℚ
  gc : ℚ
  binX : Nat
  binYval : Option ℚ
  incr : Nat
  diag : Bool

/-- Shallow embedding of `kat::Sect::processSeq` (`sect.cc` lines
373-467) for the sequence at one index.  Field by field:
* `counts`, `coverage`, `nonZero`: written in the `seqLength >= merLen`
  branch (lines 393-430); in the short branch the slots keep their
  zero-initialized / null defaults (lines 389-392).  Line 416 reads
  `if (seqCounts != 0) nbNonZero++;`, a null test on the `shared_ptr`
  just stored, modelled by `(some (seqCountsVec ..)).isSome`.
* `length`, `percentNonZero`: lines 434-436.
* `gc`: lines 439-455.
* `binX`: line 462, `uint16_t x = gc_perc * gcBins` (truncation of a
  non-negative `double` towards zero, i.e. the floor).
* `binYval`: lines 457-463 before the `uint16_t` conversion.
* `incr`: line 466, `incTM(th_id, x, y, seqLength)` adds `seqLength`.
* `diag`: the `cerr` diagnostic of lines 391-392. -/
def processSeq (cfg : SectCfg) (lookup : List Char → Nat) (rlog10 : ℚ → ℚ)
    (seq : List Char) : SeqResult :=
  let seqLength := seq.length
  let nbCounts := seqLength - cfg.merLen + 1
  let seqCounts := seqCountsVec lookup cfg.merLen seq
  let average_cvg : ℚ :=
    if seqLength < cfg.merLen then 0
    else if cfg.median then medianCoverage seqCounts
    else (seqCounts.sum : ℚ) / (nbCounts : ℚ)
  let gc_perc := gcFraction seq
  { counts := if seqLength < cfg.merLen then none else some seqCounts
    coverage := average_cvg
    length := seqLength
    nonZero := if seqLength < cfg.merLen then 0
               else if (some seqCounts).isSome then 1 else 0
    percentNonZero :=
      ((if seqLength < cfg.merLen then 0
        else if (some seqCounts).isSome then 1 else 0 : Nat) : ℚ) / (seqLength : ℚ)
    gc := gc_perc
    binX := (⌊gc_perc * (cfg.gcBins : ℚ)⌋).toNat
    binYval := cvgBinVal rlog10 cfg.cvgLogscale cfg.cvgBins average_cvg
    incr := seqLength
    diag := decide (seqLength < cfg.merLen) }

/-- One batch of sequences processed in input order: the per-index results
of `processSeq` (the batch buffers are indexed identically to the input
records). -/
def processBatch (cfg : SectCfg) (lookup : List Char → Nat) (rlog10 : ℚ → ℚ)
    (seqs : List (List Char)) : List SeqResult :=
  seqs.map (processSeq cfg lookup rlog10)

/-- The per-sequence line of `kat::Sect::printCounts` (`sect.cc` lines
281-298): the space-separated count vector when the slot holds a
non-empty vector, a literal `0` line otherwise. -/
def printCountsLine (seqCounts : Option (List Nat)) : String :=
  match seqCounts with
  | some l => if l.isEmpty then "0" else String.intercalate " " (l.map toString)
  | none => "0"

/-! ## Characterization lemmas for the character-scanning loops -/

/-- The GC loop counts exactly the `G`/`g`, `C`/`c` and `N`/`n`
occurrences of the sequence. -/
lemma gcCounts_char (seq : List Char) :
    gcCounts seq = (seq.countP (fun c => decide (c = 'G' ∨ c = 'g')),
                    seq.countP (fun c => decide (c = 'C' ∨ c = 'c')),
                    seq.countP (fun c => decide (c = 'N' ∨ c = 'n'))) := by
  induction seq with
  | nil => rfl
  | cons c rest ih =>
    by_cases h1 : c = 'G' ∨ c = 'g'
    · obtain rfl | rfl := h1 <;> simp +decide [gcCounts, ih, List.countP_cons]
    · by_cases h2 : c = 'C' ∨ c = 'c'
      · obtain rfl | rfl := h2 <;> simp +decide [gcCounts, ih, List.countP_cons]
      · by_cases h3 : c = 'N' ∨ c = 'n'
        · obtain rfl | rfl := h3 <;> simp +decide [gcCounts, ih, List.countP_cons]
        · simp only [gcCounts, ih, List.countP_cons, if_neg h1, if_neg h2, if_neg h3]
          push_neg at h1 h2 h3
          simp [h1.1, h1.2, h2.1, h2.2, h3.1, h3.2]

/-- A character that is none of `G`/`g`, `C`/`c`, `N`/`n` falls through
all three branches of the GC loop: deleting it from the sequence does not
change any of the three counters. -/
lemma gcCounts_skip (c : Char) (h1 : ¬(c = 'G' ∨ c = 'g'))
    (h2 : ¬(c = 'C' ∨ c = 'c')) (h3 : ¬(c = 'N' ∨ c = 'n')) (s t : List Char) :
    gcCounts (s ++ c :: t) = gcCounts (s ++ t) := by
  induction s with
  | nil => simp only [List.nil_append, gcCounts, if_neg h1, if_neg h2, if_neg h3]
  | cons a s ih => simp only [List.cons_append, gcCounts, List.append_eq, ih]

/-- The `ns` counter of the GC loop never exceeds the sequence length. -/
lemma gcCounts_ns_le (seq : List Char) : (gcCounts seq).2.2 ≤ seq.length := by
  rw [gcCounts_char]
  exact List.countP_le_length _

/-- The `switch` of `validKmer` accepts a k-mer string exactly when every
character is one of the four upper-case bases `A`, `C`, `G`, `T`. -/
lemma validKmer_iff (w : List Char) :
    validKmer w = true ↔ ∀ c ∈ w, c = 'A' ∨ c = 'C' ∨ c = 'G' ∨ c = 'T' := by
  induction w with
  | nil => simp [validKmer]
  | cons c rest ih =>
    rw [validKmer.eq_def]
    split
    · rename_i heq
      exact absurd heq (by simp)
    · rename_i x c2 rest2 heq
      injection heq with h1 h2
      subst h1
      subst h2
      split
      · simp +decide [List.forall_mem_cons, ih]
      · simp +decide [List.forall_mem_cons, ih]
      · simp +decide [List.forall_mem_cons, ih]
      · simp +decide [List.forall_mem_cons, ih]
      · rename_i hA hT hG hC
        simp only [Bool.false_eq_true, false_iff]
        intro hall
        rcases hall c (List.mem_cons_self _ _) with h | h | h | h
        · exact hA h
        · exact hC h
        · exact hG h
        · exact hT h

/-! ## Concrete GC fractions used by the testable properties -/

/-- GC fraction of `GGCC` is exactly `1`. -/
lemma gcFraction_GGCC : gcFraction "GGCC".data = 1 := by
  have h : gcCounts "GGCC".data = (2, 2, 0) := by decide
  have hl : ("GGCC".data).length = 4 := by decide
  simp only [gcFraction, h, hl]
  norm_num

/-- GC fraction of `ATAT` is exactly `0`. -/
lemma gcFraction_ATAT : gcFraction "ATAT".data = 0 := by
  have h : gcCounts "ATAT".data = (0, 0, 0) := by decide
  have hl : ("ATAT".data).length = 4 := by decide
  simp only [gcFraction, h, hl]
  norm_num

/-- GC fraction of `GGNN` is exactly `1`: the two `N`s leave the
denominator `4 - 2 = 2` and the numerator is `2`. -/
lemma gcFraction_GGNN : gcFraction "GGNN".data = 1 := by
  have h : gcCounts "GGNN".data = (2, 0, 2) := by decide
  have hl : ("GGNN".data).length = 4 := by decide
  simp only [gcFraction, h, hl]
  norm_num

/-! ## Unfolding lemmas for the fields of `processSeq` -/

/-- The count-vector slot: null below `merLen`, the window counts otherwise. -/
lemma processSeq_counts (cfg : SectCfg) (lookup : List Char → Nat) (rlog10 : ℚ → ℚ)
    (seq : List Char) :
    (processSeq cfg lookup rlog10 seq).counts =
      if seq.length < cfg.merLen then none
      else some (seqCountsVec lookup cfg.merLen seq) := rfl

/-- The coverage slot: `0` below `merLen`, the median or the mean otherwise. -/
lemma processSeq_coverage (cfg : SectCfg) (lookup : List Char → Nat) (rlog10 : ℚ → ℚ)
    (seq : List Char) :
    (processSeq cfg lookup rlog10 seq).coverage =
      if seq.length < cfg.merLen then 0
      else if cfg.median then medianCoverage (seqCountsVec lookup cfg.merLen seq)
      else ((seqCountsVec lookup cfg.merLen seq).sum : ℚ)
        / ((seq.length - cfg.merLen + 1 : Nat) : ℚ) := rfl

/-- The non-zero counter: `0` below `merLen`, `1` otherwise (the `if` on
line 416 compares the just-stored `shared_ptr` with null). -/
lemma processSeq_nonZero (cfg : SectCfg) (lookup : List Char → Nat) (rlog10 : ℚ → ℚ)
    (seq : List Char) :
    (processSeq cfg lookup rlog10 seq).nonZero =
      if seq.length < cfg.merLen then 0 else 1 := rfl

/-- The percent-non-zero slot is the non-zero counter over the length. -/
lemma processSeq_percentNonZero (cfg : SectCfg) (lookup : List Char → Nat) (rlog10 : ℚ → ℚ)
    (seq : List Char) :
    (processSeq cfg lookup rlog10 seq).percentNonZero =
      (((processSeq cfg lookup rlog10 seq).nonZero : Nat) : ℚ) / ((seq.length : Nat) : ℚ) := rfl

/-- The GC-axis bin: `gc_perc * gcBins` truncated, with no upper clamp. -/
lemma processSeq_binX (cfg : SectCfg) (lookup : List Char → Nat) (rlog10 : ℚ → ℚ)
    (seq : List Char) :
    (processSeq cfg lookup rlog10 seq).binX
      = (⌊gcFraction seq * (cfg.gcBins : ℚ)⌋).toNat := rfl

/-- The coverage-axis bin value before integer conversion. -/
lemma processSeq_binYval (cfg : SectCfg) (lookup : List Char → Nat) (rlog10 : ℚ → ℚ)
    (seq : List Char) :
    (processSeq cfg lookup rlog10 seq).binYval
      = cvgBinVal rlog10 cfg.cvgLogscale cfg.cvgBins
          (processSeq cfg lookup rlog10 seq).coverage := rfl

/-- The histogram increment magnitude is always the sequence length. -/
lemma processSeq_incr (cfg : SectCfg) (lookup : List Char → Nat) (rlog10 : ℚ → ℚ)
    (seq : List Char) :
    (processSeq cfg lookup rlog10 seq).incr = seq.length := rfl

/-- The too-short diagnostic fires exactly below `merLen`. -/
lemma processSeq_diag (cfg : SectCfg) (lookup : List Char → Nat) (rlog10 : ℚ → ℚ)
    (seq : List Char) :
    (processSeq cfg lookup rlog10 seq).diag = decide (seq.length < cfg.merLen) := rfl

/-! ## Claim C8 -/

/-- C8: for every sequence the GC fraction computed by `processSeq` is
`(gs + cs) / (length - ns)` where `gs`, `cs` count `G` and `C`
case-insensitively and `ns` counts `N` case-insensitively (`N` excluded
from the denominator); the GC fraction of `GGCC` is `1.0`, of `ATAT` is
`0.0`, and of `GGNN` is `1.0`. -/
theorem C8_gcFraction_formula :
    (∀ (cfg : SectCfg) (lookup : List Char → Nat) (rlog10 : ℚ → ℚ) (seq : List Char),
      (processSeq cfg lookup rlog10 seq).gc = gcFraction seq) ∧
    (∀ seq : List Char,
      gcFraction seq =
        ((seq.countP (fun c => decide (c = 'G' ∨ c = 'g'))
          + seq.countP (fun c => decide (c = 'C' ∨ c = 'c')) : Nat) : ℚ)
        / ((seq.length - seq.countP (fun c => decide (c = 'N' ∨ c = 'n')) : Nat) : ℚ)) ∧
    gcFraction "GGCC".data = 1 ∧ gcFraction "ATAT".data = 0 ∧ gcFraction "GGNN".data = 1 := by
  refine ⟨fun cfg lookup rlog10 seq => rfl, fun seq => ?_,
    gcFraction_GGCC, gcFraction_ATAT, gcFraction_GGNN⟩
  simp only [gcFraction, gcCounts_char]

/-! ## Claim C10 -/

/-- C10: in the GC computation every character other than `G`/`g`,
`C`/`c`, `N`/`n` (for instance the IUPAC code `R`) behaves exactly like
an `A` or `T` base: the three loop counters are unchanged, the GC
fraction is the same as with an `A` in its place, the numerator `gs + cs`
does not see it, and the denominator `length - ns` counts it. -/
theorem C10_other_chars_like_AT (c : Char)
    (hc : c ∉ (['G', 'g', 'C', 'c', 'N', 'n'] : List Char)) (s t : List Char) :
    gcCounts (s ++ c :: t) = gcCounts (s ++ 'A' :: t) ∧
    gcFraction (s ++ c :: t) = gcFraction (s ++ 'A' :: t) ∧
    (gcCounts (s ++ c :: t)).1 + (gcCounts (s ++ c :: t)).2.1
      = (gcCounts (s ++ t)).1 + (gcCounts (s ++ t)).2.1 ∧
    (s ++ c :: t).length - (gcCounts (s ++ c :: t)).2.2
      = ((s ++ t).length - (gcCounts (s ++ t)).2.2) + 1 := by
  simp only [List.mem_cons, List.mem_singleton] at hc
  push_neg at hc
  obtain ⟨hG, hg, hC, hcc, hN, hn⟩ := hc
  have h1 : ¬(c = 'G' ∨ c = 'g') := by tauto
  have h2 : ¬(c = 'C' ∨ c = 'c') := by tauto
  have h3 : ¬(c = 'N' ∨ c = 'n') := by tauto
  have hskip : gcCounts (s ++ c :: t) = gcCounts (s ++ t) := gcCounts_skip c h1 h2 h3 s t
  have hskipA : gcCounts (s ++ 'A' :: t) = gcCounts (s ++ t) := by
    refine gcCounts_skip 'A' ?_ ?_ ?_ s t <;> decide
  have hcnt : gcCounts (s ++ c :: t) = gcCounts (s ++ 'A' :: t) := hskip.trans hskipA.symm
  have hlen : (s ++ c :: t).length = (s ++ 'A' :: t).length := by
    simp [List.length_append]
  have hlen1 : (s ++ c :: t).length = (s ++ t).length + 1 := by
    simp [List.length_append]
    omega
  refine ⟨hcnt, ?_, ?_, ?_⟩
  · simp only [gcFraction, hcnt, hlen]
  · rw [hskip]
  · rw [hskip, hlen1]
    have := gcCounts_ns_le (s ++ t)
    omega

/-- C10 witness: the IUPAC ambiguity code `R` inside `GRC` is counted
like an `A`: same GC counters as `GAC`, same GC fraction, numerator as in
`GC`, denominator one more than in `GC`. -/
theorem C10_witness :
    ('R' ∉ (['G', 'g', 'C', 'c', 'N', 'n'] : List Char)) ∧
    (gcCounts ("G".data ++ 'R' :: "C".data) = gcCounts ("G".data ++ 'A' :: "C".data) ∧
     gcFraction ("G".data ++ 'R' :: "C".data) = gcFraction ("G".data ++ 'A' :: "C".data) ∧
     (gcCounts ("G".data ++ 'R' :: "C".data)).1 + (gcCounts ("G".data ++ 'R' :: "C".data)).2.1
       = (gcCounts ("G".data ++ "C".data)).1 + (gcCounts ("G".data ++ "C".data)).2.1 ∧
     ("G".data ++ 'R' :: "C".data).length - (gcCounts ("G".data ++ 'R' :: "C".data)).2.2
       = (("G".data ++ "C".data).length - (gcCounts ("G".data ++ "C".data)).2.2) + 1) :=
  ⟨by decide, C10_other_chars_like_AT 'R' (by decide) "G".data "C".data⟩

/-! ## Claim C2 -/

/-- C2 counterexample: the window `acgt` consists solely of bases in
`{A,C,G,T}` compared case-insensitively (they are the lower-case forms),
and the Count Index Adapter returns `5` for every string, yet the
recorded count for the window is `0`, not the adapter's `5`:
`validKmer` accepts only the upper-case bases. -/
theorem C2_counterexample :
    (∀ c ∈ ("acgt".data), c = 'a' ∨ c = 'c' ∨ c = 'g' ∨ c = 't') ∧
    seqCountsVec (fun _ => 5) 4 "acgt".data = [0] ∧ (0 : Nat) ≠ 5 := by
  refine ⟨by decide, by decide, by decide⟩

/-- C2 amended: for every k-mer window of a sequence, if the window
contains any character other than the four upper-case bases `A`, `C`,
`G`, `T` — including lower-case `a`, `c`, `g`, `t` — its recorded count
is exactly `0` regardless of the Count Index Adapter; only when all
bases are upper-case `A`, `C`, `G`, `T` is the window's count the value
returned by the Count Index Adapter lookup. -/
theorem C2_window_counts (lookup : List Char → Nat) (k : Nat) (seq : List Char)
    (i : Nat) (hi : i < seq.length - k + 1) :
    ((∃ c ∈ substrK seq i k, ¬(c = 'A' ∨ c = 'C' ∨ c = 'G' ∨ c = 'T')) →
      (seqCountsVec lookup k seq).getD i 0 = 0) ∧
    ((∀ c ∈ substrK seq i k, c = 'A' ∨ c = 'C' ∨ c = 'G' ∨ c = 'T') →
      (seqCountsVec lookup k seq).getD i 0 = lookup (substrK seq i k)) := by
  have hget : (seqCountsVec lookup k seq).getD i 0
      = if validKmer (substrK seq i k) then lookup (substrK seq i k) else 0 := by
    rw [seqCountsVec, List.getD_eq_getElem?_getD, List.getElem?_map,
      List.getElem?_range hi]
    rfl
  constructor
  · rintro ⟨c, hcmem, hcbad⟩
    have hnot : validKmer (substrK seq i k) = false := by
      rcases h : validKmer (substrK seq i k) with _ | _
      · rfl
      · exact absurd (validKmer_iff _ |>.1 h c hcmem) hcbad
    rw [hget, hnot]
    rfl
  · intro hall
    rw [hget, validKmer_iff _ |>.2 hall]
    rfl

/-- C2 witness: in the sequence `AN` with `k = 1`, the window `N` at
offset `1` records count `0`, and the window `A` at offset `0` records
the adapter's value `7`. -/
theorem C2_witness :
    (1 < ("AN".data).length - 1 + 1 ∧
      (seqCountsVec (fun _ => 7) 1 "AN".data).getD 1 0 = 0) ∧
    (0 < ("AN".data).length - 1 + 1 ∧
      (seqCountsVec (fun _ => 7) 1 "AN".data).getD 0 0 = 7) := by
  constructor
  · exact ⟨by decide,
      (C2_window_counts (fun _ => 7) 1 "AN".data 1 (by decide)).1
        ⟨'N', by decide, by decide⟩⟩
  · exact ⟨by decide,
      (C2_window_counts (fun _ => 7) 1 "AN".data 0 (by decide)).2
        (by decide)⟩

/-! ## Claim C3 -/

/-- C3: in median aggregation mode, the coverage of every sequence of
length at least `k` is the element at index `len / 2` of any
ascending-sorted copy of the count vector (the upper median — not
averaged for even lengths); on the count vector `[5, 1, 3]` the median
is `3`, and on `[1, 2, 3, 4]` it is `3`. -/
theorem C3_median_coverage (cfg : SectCfg) (lookup : List Char → Nat) (rlog10 : ℚ → ℚ)
    (seq : List Char) (hmed : cfg.median = true) (hlen : cfg.merLen ≤ seq.length) :
    (∀ l' : List Nat, l'.Perm (seqCountsVec lookup cfg.merLen seq) →
      l'.Sorted (· ≤ ·) →
      (processSeq cfg lookup rlog10 seq).coverage = ((l'.getD (l'.length / 2) 0 : Nat) : ℚ)) ∧
    medianCoverage [5, 1, 3] = 3 ∧ medianCoverage [1, 2, 3, 4] = 3 := by
  refine ⟨fun l' hperm hsort => ?_, by decide, by decide⟩
  rw [processSeq_coverage, if_neg (not_lt.2 hlen), if_pos hmed]
  have hl : l' = (seqCountsVec lookup cfg.merLen seq).insertionSort (· ≤ ·) :=
    List.eq_of_perm_of_sorted
      (hperm.trans (List.perm_insertionSort _ _).symm)
      hsort (List.sorted_insertionSort _ _)
  rw [medianCoverage, hl]

/-- C3 witness: with `k = 1` over `ACG` and an adapter giving the counts
`5`, `1`, `3` to the three windows, the sorted copy `[1, 3, 5]` of the
count vector gives coverage `3` (its element at index `3 / 2 = 1`). -/
theorem C3_median_coverage_witness :
    ((⟨1, true, false, 1001, 1001⟩ : SectCfg).median = true) ∧
    ((⟨1, true, false, 1001, 1001⟩ : SectCfg).merLen ≤ ("ACG".data).length) ∧
    ([1, 3, 5] : List Nat).Perm
      (seqCountsVec (fun w => if w = ['A'] then 5 else if w = ['C'] then 1 else 3)
        1 "ACG".data) ∧
    (processSeq ⟨1, true, false, 1001, 1001⟩
        (fun w => if w = ['A'] then 5 else if w = ['C'] then 1 else 3) id "ACG".data).coverage
      = ((([1, 3, 5] : List Nat).getD (([1, 3, 5] : List Nat).length / 2) 0 : Nat) : ℚ) := by
  refine ⟨rfl, by decide, by decide, ?_⟩
  exact (C3_median_coverage ⟨1, true, false, 1001, 1001⟩
    (fun w => if w = ['A'] then 5 else if w = ['C'] then 1 else 3) id "ACG".data
    rfl (by decide)).1 [1, 3, 5] (by decide) (by decide)

/-! ## Claim C4 -/

/-- C4: the non-zero-window counter is incremented at most once per
sequence — it is `0` for sequences shorter than `k` and exactly `1`
otherwise, independently of the Count Index Adapter (and hence of how
many windows actually had non-zero counts) — so `percentNonZero`, the
counter divided by the length, is always either `0` or `1/length`. -/
theorem C4_nonZero_at_most_once (cfg : SectCfg) (lookup lookup2 : List Char → Nat)
    (rlog10 : ℚ → ℚ) (seq : List Char) :
    (processSeq cfg lookup rlog10 seq).nonZero
      = (if seq.length < cfg.merLen then 0 else 1) ∧
    (processSeq cfg lookup rlog10 seq).nonZero ≤ 1 ∧
    (processSeq cfg lookup rlog10 seq).nonZero
      = (processSeq cfg lookup2 rlog10 seq).nonZero ∧
    (processSeq cfg lookup rlog10 seq).percentNonZero
      = (((processSeq cfg lookup rlog10 seq).nonZero : Nat) : ℚ) / ((seq.length : Nat) : ℚ) ∧
    (0 < seq.length →
      (processSeq cfg lookup rlog10 seq).percentNonZero = 0 ∨
      (processSeq cfg lookup rlog10 seq).percentNonZero = 1 / ((seq.length : Nat) : ℚ)) := by
  refine ⟨rfl, ?_, rfl, rfl, fun _ => ?_⟩
  · rw [processSeq_nonZero]
    split <;> omega
  · rw [processSeq_percentNonZero, processSeq_nonZero]
    by_cases h : seq.length < cfg.merLen
    · rw [if_pos h]
      left
      simp
    · rw [if_neg h]
      right
      simp

/-- C4 witness: the one-base sequence `A` with `k = 27` is degraded, the
counter stays `0`, and `percentNonZero` is `0`. -/
theorem C4_nonZero_at_most_once_witness :
    0 < ("A".data).length ∧
    ((processSeq ⟨27, true, false, 1001, 1001⟩ (fun _ => 9) id "A".data).percentNonZero = 0 ∨
     (processSeq ⟨27, true, false, 1001, 1001⟩ (fun _ => 9) id "A".data).percentNonZero
       = 1 / ((("A".data).length : Nat) : ℚ)) :=
  ⟨by decide,
    (C4_nonZero_at_most_once ⟨27, true, false, 1001, 1001⟩ (fun _ => 9) (fun _ => 9)
      id "A".data).2.2.2.2 (by decide)⟩

/-! ## Claim C5 -/

/-- C5: the GC bin index is `gcFraction * gcBins` truncated to an
integer with no upper clamp, so any sequence whose GC fraction is
exactly `1` is binned at index `gcBins`, one past the last valid bin
index `gcBins - 1` of the `gcBins × cvgBins` matrix. -/
theorem C5_gcBin_out_of_bounds (cfg : SectCfg) (lookup : List Char → Nat) (rlog10 : ℚ → ℚ)
    (seq : List Char) (hgc : gcFraction seq = 1) :
    (processSeq cfg lookup rlog10 seq).binX = cfg.gcBins ∧
    (1 ≤ cfg.gcBins → cfg.gcBins - 1 < (processSeq cfg lookup rlog10 seq).binX) := by
  have hx : (processSeq cfg lookup rlog10 seq).binX = cfg.gcBins := by
    rw [processSeq_binX, hgc, one_mul, Int.floor_natCast, Int.toNat_natCast]
  exact ⟨hx, fun h1 => by omega⟩

/-- C5 witness: the all-GC sequence `GGCC` has GC fraction `1` and is
binned at `x = 1001` with the default `gcBins = 1001`, past the last
valid index `1000`. -/
theorem C5_gcBin_out_of_bounds_witness :
    gcFraction "GGCC".data = 1 ∧
    (processSeq ⟨27, true, false, 1001, 1001⟩ (fun _ => 0) id "GGCC".data).binX = 1001 ∧
    1001 - 1 < (processSeq ⟨27, true, false, 1001, 1001⟩ (fun _ => 0) id "GGCC".data).binX :=
  ⟨gcFraction_GGCC,
    (C5_gcBin_out_of_bounds ⟨27, true, false, 1001, 1001⟩ (fun _ => 0) id "GGCC".data
      gcFraction_GGCC).1,
    (C5_gcBin_out_of_bounds ⟨27, true, false, 1001, 1001⟩ (fun _ => 0) id "GGCC".data
      gcFraction_GGCC).2 (by decide)⟩

/-! ## Claim C6 -/

/-- C6: the coverage bin value is `log10(coverage) * (cvgBins / 5)` in
log-scale mode and `coverage * 0.1` otherwise; any scaled value at least
`cvgBins` is clamped to `cvgBins - 1` but values below `cvgBins` pass
through unclamped (no lower clamp); and in log-scale mode a coverage
at most `0` produces a non-finite bin value before the integer
conversion.  The last conjunct ties the bin value of `processSeq` to
this computation. -/
theorem C6_cvgBin_value (rlog10 : ℚ → ℚ) (bins : Nat) (cvg c : ℚ) :
    (0 < cvg →
      compressedCvg rlog10 true bins cvg = some (rlog10 cvg * ((bins : ℚ) / 5))) ∧
    (compressedCvg rlog10 false bins cvg = some (cvg * (1 / 10))) ∧
    ((bins : ℚ) ≤ c → clampCvg bins c = ((bins - 1 : Nat) : ℚ)) ∧
    (c < (bins : ℚ) → clampCvg bins c = c) ∧
    (cvg ≤ 0 → cvgBinVal rlog10 true bins cvg = none) ∧
    (∀ (cfg : SectCfg) (lookup : List Char → Nat) (seq : List Char),
      (processSeq cfg lookup rlog10 seq).binYval
        = cvgBinVal rlog10 cfg.cvgLogscale cfg.cvgBins
            (processSeq cfg lookup rlog10 seq).coverage) := by
  refine ⟨fun h => ?_, rfl, fun h => ?_, fun h => ?_, fun h => ?_,
    fun cfg lookup seq => rfl⟩
  · simp [compressedCvg, log10D, not_le.2 h]
  · rw [clampCvg, if_pos h]
  · rw [clampCvg, if_neg (not_le.2 h)]
  · simp [cvgBinVal, compressedCvg, log10D, h]

/-- C6 witness: with the identity as abstract `log10`, `cvgBins = 1001`
and coverage `0`, the log-scale bin value is non-finite; and the
unscaled value `2000` is clamped down to bin value `1000`. -/
theorem C6_cvgBin_value_witness :
    (0 : ℚ) ≤ 0 ∧ cvgBinVal id true 1001 0 = none ∧
    (1001 : ℚ) ≤ 2000 ∧ clampCvg 1001 2000 = ((1001 - 1 : Nat) : ℚ) := by
  refine ⟨le_refl 0, (C6_cvgBin_value id 1001 0 2000).2.2.2.2.1 (le_refl 0),
    by norm_num, (C6_cvgBin_value id 1001 0 2000).2.2.1 (by norm_num)⟩

/-! ## Claim C7 -/

/-- C7: a sequence shorter than `k` is degraded but non-fatal: the
diagnostic fires, its coverage is `0`, its count vector slot is null,
its non-zero counter is `0`, its line in the counts output is a literal
`0`, and the batch around it is processed unchanged (processing simply
continues with the other sequences). -/
theorem C7_short_sequence_degraded (cfg : SectCfg) (lookup : List Char → Nat)
    (rlog10 : ℚ → ℚ) (seq : List Char) (hshort : seq.length < cfg.merLen) :
    (processSeq cfg lookup rlog10 seq).diag = true ∧
    (processSeq cfg lookup rlog10 seq).coverage = 0 ∧
    (processSeq cfg lookup rlog10 seq).counts = none ∧
    (processSeq cfg lookup rlog10 seq).nonZero = 0 ∧
    printCountsLine (processSeq cfg lookup rlog10 seq).counts = "0" ∧
    (∀ pre post : List (List Char),
      processBatch cfg lookup rlog10 (pre ++ seq :: post)
        = processBatch cfg lookup rlog10 pre
          ++ processSeq cfg lookup rlog10 seq :: processBatch cfg lookup rlog10 post) := by
  have hc : (processSeq cfg lookup rlog10 seq).counts = none := by
    rw [processSeq_counts, if_pos hshort]
  refine ⟨?_, ?_, hc, ?_, ?_, fun pre post => ?_⟩
  · rw [processSeq_diag, decide_eq_true_eq]
    exact hshort
  · rw [processSeq_coverage, if_pos hshort]
  · rw [processSeq_nonZero, if_pos hshort]
  · rw [hc]
    rfl
  · simp [processBatch]

/-- C7 witness: the one-base sequence `A` with the default `k = 27` is
degraded: diagnostic on, coverage `0`, null counts slot, counter `0`,
and a literal `0` counts line. -/
theorem C7_short_sequence_degraded_witness :
    ("A".data).length < 27 ∧
    (processSeq ⟨27, true, false, 1001, 1001⟩ (fun _ => 9) id "A".data).coverage = 0 ∧
    printCountsLine (processSeq ⟨27, true, false, 1001, 1001⟩ (fun _ => 9) id "A".data).counts
      = "0" :=
  ⟨by decide,
    (C7_short_sequence_degraded ⟨27, true, false, 1001, 1001⟩ (fun _ => 9) id "A".data
      (by decide)).2.1,
    (C7_short_sequence_degraded ⟨27, true, false, 1001, 1001⟩ (fun _ => 9) id "A".data
      (by decide)).2.2.2.2.1⟩

/-! ## Interlaced batch partitioning and the contamination matrix -/

/-- The interlaced index assignment of `kat::Sect::processInterlaced`
(`sect.cc` lines 349-355): the loop `for (i = t; i < n; i += T)` over the
indices of the current batch, for worker `t` out of `T` workers.  The
worker count is positive: `threads` defaults to `1`, and a zero value
would already divide by zero in the constructor's `BATCH_SIZE / threads`. -/
def interlaced (T : Nat) (hT : 0 < T) (t n : Nat) : List Nat :=
  if t < n then t :: interlaced T hT (t + T) n else []
termination_by n - t
decreasing_by omega

/-- Modelled from the spec: the sparse 2-D accumulator grid behind
`ThreadedSparseMatrix` (its implementation lives in
`inc/matrix/threaded_sparse_matrix.hpp`, which is not among these
sources).  Per the spec each worker identity owns one such matrix of
non-negative integer accumulators, mutated only through bin increments;
it is represented here as an association list from cell coordinates to
accumulated values. -/
abbrev SparseMx := List ((Nat × Nat) × Nat)

/-- Modelled from the spec: the bin increment `incTM(th_id, x, y, v)`
adds `v` to the cell `(x, y)` of the worker's matrix. -/
def incTM (m : SparseMx) (x y v : Nat) : SparseMx :=
  match m with
  | [] => [((x, y), v)]
  | e :: rest => if e.1 = (x, y) then (e.1, e.2 + v) :: rest else e :: incTM rest x y v

/-- The value accumulated in one cell of a sparse matrix. -/
def cellGet (m : SparseMx) (p : Nat × Nat) : Nat :=
  ((m.filter (fun e => e.1 == p)).map (fun e => e.2)).sum

/-- The sum of all cells of a sparse matrix. -/
def totalMass (m : SparseMx) : Nat :=
  (m.map (fun e => e.2)).sum

/-- Modelled from the spec: the element-wise sum of two sparse matrices,
one step of `mergeThreadedMatricies`. -/
def mergeMx (a b : SparseMx) : SparseMx :=
  b.foldl (fun acc e => incTM acc e.1.1 e.1.2 e.2) a

/-- Modelled from the spec: `mergeThreadedMatricies` sums all per-thread
matrices element-wise into the final `ContaminationMatrix`, exactly once
after all batches (`sect.cc` lines 225-235 call it once, after
`processSeqFile` has consumed every batch). -/
def mergeAll (ms : List SparseMx) : SparseMx :=
  ms.foldl mergeMx []

/-- The ThreadMatrix owned by worker `t` at the end of the run: across
all batches, worker `t` runs `processSeq` on its interlaced share of each
batch, and each `processSeq` call performs exactly one `incTM` of
magnitude `seqLength` (`sect.cc` line 466) at the bin coordinates
computed for the sequence (abstracted as `binOf`). -/
def threadMatrix (cfg : SectCfg) (lookup : List Char → Nat) (rlog10 : ℚ → ℚ)
    (binOf : List Char → Nat × Nat) (T : Nat) (hT : 0 < T) (t : Nat)
    (batches : List (List (List Char))) : SparseMx :=
  batches.foldl (fun m batch =>
    (interlaced T hT t batch.length).foldl (fun m i =>
      incTM m (binOf (batch.getD i [])).1 (binOf (batch.getD i [])).2
        (processSeq cfg lookup rlog10 (batch.getD i [])).incr) m) []

/-- The per-index result buffer after one batch: `analyseBatch`
(`sect.cc` lines 237-248) spawns workers `0 .. T-1`, each running
`processInterlaced` and writing `f i` into slot `i` of the shared buffer
for its own indices; the writes are disjoint across workers, so the
concurrent workers are modelled as a sequential fold over worker ids. -/
def writeSlots (f : Nat → α) (T : Nat) (hT : 0 < T) (n : Nat) (buf : List α) : List α :=
  (List.range T).foldl
    (fun b t => (interlaced T hT t n).foldl (fun b i => b.set i (f i)) b) buf

/-- The per-batch stats table of `kat::Sect::printStatTable` (`sect.cc`
lines 301-310): one row per sequence, reading slot `i` for
`i = 0 .. recordsInBatch - 1` in input order. -/
def statRows (buf : List α) (d : α) (n : Nat) : List α :=
  (List.range n).map fun i => buf.getD i d

/-! ## Arithmetic helpers for the interlace stride -/

/-- Taking one stride of `T` preserves the congruence constraint. -/
lemma stride_mod_iff (T t n : Nat) (hT : 0 < T) (h2 : t < n) :
    (t + T ≤ n ∧ (n - (t + T)) % T = 0) ↔ (t ≤ n ∧ (n - t) % T = 0) := by
  constructor
  · rintro ⟨h1, h3⟩
    refine ⟨by omega, ?_⟩
    have e : n - t = (n - (t + T)) + T := by omega
    rw [e, Nat.add_mod_right]
    exact h3
  · rintro ⟨h1, h3⟩
    have hd : T ∣ (n - t) := Nat.dvd_of_mod_eq_zero h3
    have hge : T ≤ n - t := Nat.le_of_dvd (by omega) hd
    obtain ⟨k, hk⟩ := hd
    rcases k with _ | k
    · rw [Nat.mul_zero] at hk
      omega
    · rw [Nat.mul_succ] at hk
      refine ⟨by omega, ?_⟩
      have e : n - (t + T) = T * k := by omega
      rw [e, Nat.mul_mod_right]

/-- For a worker id `t < T`, satisfying the loop constraint `t ≤ i` with
`(i - t) % T = 0` is the same as having residue `t` modulo `T`. -/
lemma worker_residue_iff (T t i : Nat) (_hT : 0 < T) (ht : t < T) :
    (t ≤ i ∧ (i - t) % T = 0) ↔ i % T = t := by
  constructor
  · rintro ⟨h1, h2⟩
    obtain ⟨k, hk⟩ := Nat.dvd_of_mod_eq_zero h2
    have hi : i = T * k + t := by omega
    rw [hi, Nat.mul_add_mod, Nat.mod_eq_of_lt ht]
  · rintro rfl
    refine ⟨Nat.mod_le i T, ?_⟩
    have h1 : i % T + T * (i / T) = i := Nat.mod_add_div i T
    have e : i - i % T = T * (i / T) := by omega
    rw [e, Nat.mul_mod_right]

lemma interlaced_succ_right (T : Nat) (hT : 0 < T) (t n : Nat) :
    interlaced T hT t (n + 1)
      = interlaced T hT t n ++ (if t ≤ n ∧ (n - t) % T = 0 then [n] else []) := by
  rw [interlaced]
  split
  · rename_i h
    by_cases h2 : t < n
    · rw [interlaced_succ_right T hT (t + T) n]
      conv_rhs => rw [interlaced]
      rw [if_pos h2]
      simp only [List.cons_append]
      congr 2
      by_cases hc : t + T ≤ n ∧ (n - (t + T)) % T = 0
      · rw [if_pos hc, if_pos ((stride_mod_iff T t n hT h2).1 hc)]
      · rw [if_neg hc, if_neg (fun hc2 => hc ((stride_mod_iff T t n hT h2).2 hc2))]
    · have ht : t = n := by omega
      subst ht
      conv_lhs => rw [interlaced]
      conv_rhs => rw [interlaced]
      rw [if_neg (lt_irrefl t), if_neg (show ¬(t + T < t + 1) by omega)]
      simp
  · rename_i h
    conv_rhs => rw [interlaced]
    rw [if_neg (show ¬(t < n) by omega),
      if_neg (fun hc2 : t ≤ n ∧ (n - t) % T = 0 => absurd hc2.1 (by omega))]
    rfl
termination_by n - t
decreasing_by omega

lemma mem_interlaced (T : Nat) (hT : 0 < T) (t i : Nat) :
    ∀ n, i ∈ interlaced T hT t n ↔ (t ≤ i ∧ i < n ∧ (i - t) % T = 0)
  | 0 => by
    rw [interlaced, if_neg (by omega)]
    simp
  | n + 1 => by
    rw [interlaced_succ_right, List.mem_append, mem_interlaced T hT t i n]
    by_cases hc : t ≤ n ∧ (n - t) % T = 0
    · rw [if_pos hc]
      simp only [List.mem_singleton]
      constructor
      · rintro (⟨h1, h2, h3⟩ | rfl)
        · exact ⟨h1, by omega, h3⟩
        · exact ⟨hc.1, by omega, hc.2⟩
      · rintro ⟨h1, h2, h3⟩
        by_cases hn : i = n
        · right
          exact hn
        · left
          exact ⟨h1, by omega, h3⟩
    · rw [if_neg hc]
      simp only [List.not_mem_nil, or_false]
      constructor
      · rintro ⟨h1, h2, h3⟩
        exact ⟨h1, by omega, h3⟩
      · rintro ⟨h1, h2, h3⟩
        have hn : i ≠ n := fun h => hc (h ▸ ⟨h1, h3⟩)
        exact ⟨h1, by omega, h3⟩

lemma interlaced_eq_filter (T : Nat) (hT : 0 < T) (t : Nat) (ht : t < T) :
    ∀ n, interlaced T hT t n = (List.range n).filter (fun i => i % T == t)
  | 0 => by
    rw [interlaced, if_neg (by omega)]
    rfl
  | n + 1 => by
    rw [interlaced_succ_right, interlaced_eq_filter T hT t ht n, List.range_succ,
      List.filter_append]
    congr 1
    by_cases hc : n % T = t
    · rw [if_pos ((worker_residue_iff T t n hT ht).2 hc)]
      simp [hc]
    · rw [if_neg (fun h => hc ((worker_residue_iff T t n hT ht).1 h))]
      simp [hc]


/-! ## List-sum helpers -/

/-- Sums distribute over pointwise addition of mapped functions. -/
lemma sum_map_add (L : List β) (f g : β → Nat) :
    (L.map fun b => f b + g b).sum = (L.map f).sum + (L.map g).sum := by
  induction L with
  | nil => rfl
  | cons b L ih =>
    simp only [List.map_cons, List.sum_cons, ih]
    omega

/-- A double list sum can be taken in either order. -/
lemma sum_map_comm (L1 : List α) (L2 : List β) (f : α → β → Nat) :
    (L1.map fun a => (L2.map (f a)).sum).sum
      = (L2.map fun b => (L1.map fun a => f a b).sum).sum := by
  induction L1 with
  | nil => simp
  | cons a L1 ih =>
    simp only [List.map_cons, List.sum_cons, ih, sum_map_add]

/-- Summing a value placed at a single residue over all residues. -/
lemma sum_map_single (v a : Nat) :
    ∀ T, a < T → ((List.range T).map fun t => if a = t then v else 0).sum = v := by
  intro T
  induction T with
  | zero => omega
  | succ T ih =>
    intro ha
    rw [List.range_succ, List.map_append, List.sum_append]
    by_cases h : a = T
    · subst h
      have hz : ∀ l : List Nat, (∀ t ∈ l, t < a) →
          ((l.map fun t => if a = t then v else 0)).sum = 0 := by
        intro l
        induction l with
        | nil => intro _; rfl
        | cons x l ihl =>
          intro hlt
          simp only [List.map_cons, List.sum_cons]
          rw [if_neg (by have := hlt x (by simp); omega),
            ihl fun t ht => hlt t (by simp [ht])]
      rw [hz _ fun t ht => List.mem_range.1 ht]
      simp
    · rw [ih (by omega)]
      simp [h]

/-- Grouping the indices below `n` by their residue class modulo `T`
partitions the batch sum. -/
lemma sum_filter_mod (T : Nat) (hT : 0 < T) (w : Nat → Nat) (n : Nat) :
    ((List.range T).map fun t =>
        (((List.range n).filter fun i => i % T == t).map w).sum).sum
      = ((List.range n).map w).sum := by
  induction n with
  | zero => simp
  | succ n ih =>
    rw [List.range_succ]
    have hsplit : ∀ t : Nat,
        ((((List.range n ++ [n]).filter fun i => i % T == t).map w).sum)
          = (((List.range n).filter fun i => i % T == t).map w).sum
            + (if n % T = t then w n else 0) := by
      intro t
      rw [List.filter_append, List.map_append, List.sum_append]
      congr 1
      by_cases h : n % T = t
      · simp [List.filter_cons, h]
      · simp [List.filter_cons, h]
    rw [List.map_congr_left fun t _ => hsplit t, sum_map_add, ih,
      sum_map_single (w n) (n % T) T (Nat.mod_lt n hT), List.map_append, List.sum_append]
    simp

/-- Each worker's interlaced share sums to its residue class; over all
workers this recovers the whole batch sum. -/
lemma sum_interlaced_partition (T : Nat) (hT : 0 < T) (w : Nat → Nat) (n : Nat) :
    ((List.range T).map fun t => ((interlaced T hT t n).map w).sum).sum
      = ((List.range n).map w).sum := by
  rw [List.map_congr_left fun t ht => by
    rw [interlaced_eq_filter T hT t (List.mem_range.1 ht) n]]
  exact sum_filter_mod T hT w n

/-- Reindexing a list through `getD` over the range of its indices. -/
lemma map_getD_range (l : List α) (d : α) (f : α → β) :
    (List.range l.length).map (fun i => f (l.getD i d)) = l.map f := by
  induction l with
  | nil => rfl
  | cons a l ih =>
    rw [List.length_cons, List.range_succ_eq_map, List.map_cons, List.map_cons, List.map_map]
    congr 1

/-! ## Mass and cell lemmas for the sparse matrices -/

/-- One bin increment adds exactly its magnitude to the total mass. -/
lemma totalMass_incTM (m : SparseMx) (x y v : Nat) :
    totalMass (incTM m x y v) = totalMass m + v := by
  induction m with
  | nil => simp [incTM, totalMass]
  | cons e rest ih =>
    simp only [incTM]
    split
    · simp only [totalMass, List.map_cons, List.sum_cons]
      omega
    · simp only [totalMass, List.map_cons, List.sum_cons] at ih ⊢
      omega

/-- Reading a cell of a cons: the head entry contributes when its key
matches. -/
lemma cellGet_cons (e : (Nat × Nat) × Nat) (m : SparseMx) (p : Nat × Nat) :
    cellGet (e :: m) p = (if e.1 = p then e.2 else 0) + cellGet m p := by
  by_cases h : e.1 = p <;> simp [cellGet, List.filter_cons, h]

/-- One bin increment adds exactly its magnitude to its own cell and
nothing to any other cell. -/
lemma cellGet_incTM (m : SparseMx) (x y v : Nat) (p : Nat × Nat) :
    cellGet (incTM m x y v) p = cellGet m p + (if (x, y) = p then v else 0) := by
  induction m with
  | nil =>
    by_cases h : (x, y) = p <;> simp [incTM, cellGet, List.filter_cons, h]
  | cons e rest ih =>
    simp only [incTM]
    split
    · rename_i he
      rw [cellGet_cons, cellGet_cons, ← he]
      by_cases hp : e.1 = p
      · simp [hp]
        omega
      · simp [hp]
    · rw [cellGet_cons, cellGet_cons, ih]
      omega

/-- Folding bin increments over a list accumulates the sum of their
magnitudes. -/
lemma totalMass_foldl_inc (px py pv : α → Nat) (L : List α) (m : SparseMx) :
    totalMass (L.foldl (fun acc x => incTM acc (px x) (py x) (pv x)) m)
      = totalMass m + (L.map pv).sum := by
  induction L generalizing m with
  | nil => simp
  | cons a L ih =>
    simp only [List.foldl_cons, ih, totalMass_incTM, List.map_cons, List.sum_cons]
    omega

/-- Merging two sparse matrices adds their total masses. -/
lemma totalMass_mergeMx (a b : SparseMx) :
    totalMass (mergeMx a b) = totalMass a + totalMass b := by
  rw [mergeMx]
  exact totalMass_foldl_inc (fun e => e.1.1) (fun e => e.1.2) (fun e => e.2) b a

/-- Merging two sparse matrices sums them cell by cell. -/
lemma cellGet_mergeMx (a b : SparseMx) (p : Nat × Nat) :
    cellGet (mergeMx a b) p = cellGet a p + cellGet b p := by
  rw [mergeMx]
  induction b generalizing a with
  | nil => simp [cellGet]
  | cons e L ih =>
    rw [List.foldl_cons, ih, cellGet_incTM, cellGet_cons,
      show ((e.1.1, e.1.2) : Nat × Nat) = e.1 from rfl]
    omega

/-- Merging a list of sparse matrices adds all their total masses. -/
lemma totalMass_mergeAll (ms : List SparseMx) :
    totalMass (mergeAll ms) = (ms.map totalMass).sum := by
  rw [mergeAll]
  have h : ∀ acc : SparseMx,
      totalMass (ms.foldl mergeMx acc) = totalMass acc + (ms.map totalMass).sum := by
    induction ms with
    | nil => intro acc; simp
    | cons a ms ih =>
      intro acc
      simp only [List.foldl_cons, ih, totalMass_mergeMx, List.map_cons, List.sum_cons]
      omega
  simpa [totalMass] using h []

/-- The total mass of one worker's ThreadMatrix is the summed length of
the sequences assigned to it, batch by batch. -/
lemma totalMass_threadMatrix (cfg : SectCfg) (lookup : List Char → Nat) (rlog10 : ℚ → ℚ)
    (binOf : List Char → Nat × Nat) (T : Nat) (hT : 0 < T) (t : Nat)
    (batches : List (List (List Char))) :
    totalMass (threadMatrix cfg lookup rlog10 binOf T hT t batches)
      = (batches.map fun batch =>
          ((interlaced T hT t batch.length).map fun i => (batch.getD i []).length).sum).sum := by
  rw [threadMatrix]
  have h : ∀ (bs : List (List (List Char))) (m : SparseMx),
      totalMass (bs.foldl (fun m batch =>
          (interlaced T hT t batch.length).foldl (fun m i =>
            incTM m (binOf (batch.getD i [])).1 (binOf (batch.getD i [])).2
              (processSeq cfg lookup rlog10 (batch.getD i [])).incr) m) m)
        = totalMass m + (bs.map fun batch =>
            ((interlaced T hT t batch.length).map fun i => (batch.getD i []).length).sum).sum := by
    intro bs
    induction bs with
    | nil => intro m; simp
    | cons b bs ih =>
      intro m
      rw [List.foldl_cons, ih,
        totalMass_foldl_inc (fun i => (binOf (b.getD i [])).1)
          (fun i => (binOf (b.getD i [])).2)
          (fun i => (processSeq cfg lookup rlog10 (b.getD i [])).incr)]
      simp only [processSeq_incr, List.map_cons, List.sum_cons]
      omega
  simpa [totalMass] using h batches []

/-! ## Claim C1 -/

/-- C1: the sum of all cells of the merged ContaminationMatrix equals
the sum of `length` over every processed sequence: each `processSeq`
call (including degraded sequences shorter than `k`) performs exactly
one increment of magnitude `seqLength` into its worker's ThreadMatrix,
and the one merge after all batches sums the per-thread matrices
element-wise, so the binned base mass equals the total input base
count.  The statement holds for every bin-coordinate assignment
`binOf`, every interlaced worker split, and every batch subdivision. -/
theorem C1_matrix_mass_conservation (cfg : SectCfg) (lookup : List Char → Nat)
    (rlog10 : ℚ → ℚ) (binOf : List Char → Nat × Nat) (T : Nat) (hT : 0 < T)
    (batches : List (List (List Char))) :
    totalMass (mergeAll ((List.range T).map fun t =>
        threadMatrix cfg lookup rlog10 binOf T hT t batches))
      = (batches.map fun batch => (batch.map List.length).sum).sum ∧
    (∀ (a b : SparseMx) (p : Nat × Nat),
      cellGet (mergeMx a b) p = cellGet a p + cellGet b p) ∧
    (∀ seq : List Char, (processSeq cfg lookup rlog10 seq).incr = seq.length) := by
  refine ⟨?_, cellGet_mergeMx, fun seq => rfl⟩
  rw [totalMass_mergeAll, List.map_map,
    List.map_congr_left fun t _ => by
      exact totalMass_threadMatrix cfg lookup rlog10 binOf T hT t batches,
    sum_map_comm,
    List.map_congr_left fun b _ => by
      rw [sum_interlaced_partition T hT _ b.length, map_getD_range b [] List.length]]

/-- C1 witness: two batches holding sequences of lengths 4, 1 and 2
under two workers: the merged matrix holds total mass `7`. -/
theorem C1_matrix_mass_conservation_witness :
    (0 : Nat) < 2 ∧
    totalMass (mergeAll ((List.range 2).map fun t =>
        threadMatrix ⟨4, true, false, 1001, 1001⟩ (fun _ => 3) id (fun _ => (0, 0)) 2
          (by omega) t [["ACGT".data, "A".data], ["GG".data]]))
      = 7 :=
  ⟨by omega,
    ((C1_matrix_mass_conservation ⟨4, true, false, 1001, 1001⟩ (fun _ => 3) id
      (fun _ => (0, 0)) 2 (by omega) [["ACGT".data, "A".data], ["GG".data]]).1).trans
      (by decide)⟩

/-! ## Disjoint slot writes of the worker threads -/

lemma getD_set_eq (l : List α) (i : Nat) (a d : α) (h : i < l.length) :
    (l.set i a).getD i d = a := by
  rw [List.getD_eq_getElem?_getD, List.getElem?_set_eq_of_lt a h]
  rfl

lemma getD_set_ne (l : List α) (i j : Nat) (a d : α) (h : i ≠ j) :
    (l.set i a).getD j d = l.getD j d := by
  rw [List.getD_eq_getElem?_getD, List.getElem?_set_ne h, ← List.getD_eq_getElem?_getD]

/-- Writing `f i` into slot `i` for every index of a list leaves the
buffer length unchanged. -/
lemma length_foldl_set (f : Nat → α) (L : List Nat) (buf : List α) :
    (L.foldl (fun b i => b.set i (f i)) buf).length = buf.length := by
  induction L generalizing buf with
  | nil => rfl
  | cons i L ih => rw [List.foldl_cons, ih, List.length_set]

/-- After one worker's writes, a slot holds `f j` exactly when the
worker visited index `j` of the buffer, and is untouched otherwise. -/
lemma getD_foldl_set (f : Nat → α) (L : List Nat) (buf : List α) (j : Nat) (d : α) :
    (L.foldl (fun b i => b.set i (f i)) buf).getD j d
      = if j ∈ L ∧ j < buf.length then f j else buf.getD j d := by
  induction L generalizing buf with
  | nil => simp
  | cons i L ih =>
    rw [List.foldl_cons, ih, List.length_set]
    by_cases hjL : j ∈ L
    · by_cases hlen : j < buf.length
      · rw [if_pos ⟨hjL, hlen⟩, if_pos ⟨List.mem_cons_of_mem _ hjL, hlen⟩]
      · rw [if_neg fun hc => hlen hc.2, if_neg fun hc => hlen hc.2,
          List.getD_eq_default _ _ (by rw [List.length_set]; omega),
          List.getD_eq_default _ _ (by omega)]
    · by_cases hji : j = i
      · subst hji
        by_cases hlen : j < buf.length
        · rw [if_neg fun hc => hjL hc.1, if_pos ⟨List.mem_cons_self _ _, hlen⟩,
            getD_set_eq _ _ _ _ hlen]
        · rw [if_neg fun hc => hlen hc.2, if_neg fun hc => hlen hc.2,
            List.getD_eq_default _ _ (by rw [List.length_set]; omega),
            List.getD_eq_default _ _ (by omega)]
      · rw [if_neg fun hc => hjL hc.1,
          if_neg fun hc => hjL ((List.mem_cons.1 hc.1).resolve_left hji),
          getD_set_ne _ _ _ _ _ fun h => hji h.symm]

/-- After all workers have written their interlaced shares, every slot
below `n` holds its own result `f j`. -/
lemma getD_writeSlots (f : Nat → α) (T : Nat) (hT : 0 < T) (n : Nat) (buf : List α)
    (hbuf : buf.length = n) (j : Nat) (hj : j < n) (d : α) :
    (writeSlots f T hT n buf).getD j d = f j := by
  have hgen : ∀ (Ts : List Nat) (b : List α),
      ((Ts.foldl (fun b t => (interlaced T hT t n).foldl (fun b i => b.set i (f i)) b) b).getD j d)
        = if (∃ t ∈ Ts, j ∈ interlaced T hT t n) ∧ j < b.length then f j else b.getD j d := by
    intro Ts
    induction Ts with
    | nil => intro b; simp
    | cons t Ts ih =>
      intro b
      rw [List.foldl_cons, ih, length_foldl_set, getD_foldl_set]
      by_cases hex : ∃ u ∈ Ts, j ∈ interlaced T hT u n
      · by_cases hlen : j < b.length
        · rw [if_pos ⟨hex, hlen⟩, if_pos ⟨⟨hex.choose, List.mem_cons_of_mem _ hex.choose_spec.1,
            hex.choose_spec.2⟩, hlen⟩]
        · rw [if_neg fun hc => hlen hc.2, if_neg fun hc => hlen hc.2,
            if_neg fun hc => hlen hc.2]
      · by_cases hmem : j ∈ interlaced T hT t n
        · by_cases hlen : j < b.length
          · rw [if_neg fun hc => hex hc.1, if_pos ⟨hmem, hlen⟩,
              if_pos ⟨⟨t, List.mem_cons_self _ _, hmem⟩, hlen⟩]
          · rw [if_neg fun hc => hlen hc.2, if_neg fun hc => hlen hc.2,
              if_neg fun hc => hlen hc.2]
        · rw [if_neg fun hc => hex hc.1, if_neg fun hc => hmem hc.1]
          by_cases hlen : j < b.length
          · rw [if_neg ?hne]
            case hne =>
              rintro ⟨⟨u, hu, hju⟩, _⟩
              rcases List.mem_cons.1 hu with rfl | hu2
              · exact hmem hju
              · exact hex ⟨u, hu2, hju⟩
          · rw [if_neg fun hc => hlen hc.2]
  rw [writeSlots, hgen]
  rw [if_pos ?hcov]
  case hcov =>
    refine ⟨⟨j % T, List.mem_range.2 (Nat.mod_lt j hT), ?_⟩, by omega⟩
    rw [mem_interlaced]
    exact ⟨Nat.mod_le j T, by omega, ((worker_residue_iff T (j % T) j hT (Nat.mod_lt j hT)).2 rfl).2⟩

/-- The stats table printed after the workers join lists every result in
input order. -/
lemma statRows_writeSlots (f : Nat → α) (T : Nat) (hT : 0 < T) (n : Nat) (buf : List α)
    (hbuf : buf.length = n) (d : α) :
    statRows (writeSlots f T hT n buf) d n = (List.range n).map f := by
  rw [statRows]
  exact List.map_congr_left fun j hj =>
    getD_writeSlots f T hT n buf hbuf j (List.mem_range.1 hj) d

/-! ## Claim C9 -/

/-- C9: within a batch of `n` records, worker `t` processes exactly the
indices `t, t+T, t+2T, …` below `n`; every index below `n` is processed
by exactly one worker (the one matching its residue modulo `T`); with
`T = 3` over `7` sequences the workers receive `{0,3,6}`, `{1,4}`,
`{2,5}`; and the emitted per-sequence stats order equals the input
order. -/
theorem C9_interlaced_assignment (T : Nat) (hT : 0 < T) (n : Nat) :
    (∀ i, i < n → i ∈ interlaced T hT (i % T) n) ∧
    (∀ t, t < T → ∀ i, i ∈ interlaced T hT t n → i < n ∧ t = i % T) ∧
    (interlaced 3 (by omega) 0 7 = [0, 3, 6] ∧
     interlaced 3 (by omega) 1 7 = [1, 4] ∧
     interlaced 3 (by omega) 2 7 = [2, 5]) ∧
    (∀ (α : Type) (f : Nat → α) (buf : List α) (d : α), buf.length = n →
      statRows (writeSlots f T hT n buf) d n = (List.range n).map f) := by
  refine ⟨fun i hi => ?_, fun t ht i hmem => ?_, ⟨?_, ?_, ?_⟩,
    fun α f buf d hbuf => statRows_writeSlots f T hT n buf hbuf d⟩
  · rw [mem_interlaced]
    exact ⟨Nat.mod_le i T, hi,
      ((worker_residue_iff T (i % T) i hT (Nat.mod_lt i hT)).2 rfl).2⟩
  · obtain ⟨h1, h2, h3⟩ := (mem_interlaced T hT t i n).1 hmem
    exact ⟨h2, ((worker_residue_iff T t i hT ht).1 ⟨h1, h3⟩).symm⟩
  · simp [interlaced]
  · simp [interlaced]
  · simp [interlaced]

/-- C9 witness: with `T = 3` over a batch of `7` records, index `5`
belongs to worker `5 % 3 = 2`, and over a buffer of length `7` the
emitted stats rows are the per-index results in input order. -/
theorem C9_interlaced_assignment_witness :
    (0 : Nat) < 3 ∧ (5 : Nat) < 7 ∧ 5 ∈ interlaced 3 (by omega) (5 % 3) 7 ∧
    (List.replicate 7 (0 : Nat)).length = 7 ∧
    statRows (writeSlots (fun i => i * 10) 3 (by omega) 7 (List.replicate 7 0)) 0 7
      = (List.range 7).map fun i => i * 10 :=
  ⟨by omega, by omega,
    (C9_interlaced_assignment 3 (by omega) 7).1 5 (by omega),
    by decide,
    (C9_interlaced_assignment 3 (by omega) 7).2.2.2 Nat (fun i => i * 10)
      (List.replicate 7 0) 0 (by decide)⟩

end KatSect
